import Mathlib

set_option maxRecDepth 8000

/-!
Verification of the study-app core (choice parsing, multi-answer grading,
bulk question extraction, Learn-mode drill state machine) against its
natural-language specification.  All definitions are shallow embeddings of
the TypeScript source: strings are Lean `String`s (lists of characters),
JavaScript arrays are Lean lists, and the React component state that drives
the Learn-mode drill is an explicit state record with a step function.
-/

/-! ## Shared string helpers (JS semantics, ASCII range)

The source operates on ASCII exam text; `trim`, `\s`, `toUpperCase`,
`toLowerCase` are modelled on the ASCII fragment of their JS behaviour. -/

/-- JS `\s` and `trim` whitespace, restricted to the ASCII characters that
occur in the modelled documents. -/
def isSpaceJS (c : Char) : Bool :=
  c = ' ' || c = '\t' || c = '\n' || c = '\r' || c = '\x0b' || c = '\x0c'

/-- JS `String.prototype.trim` on a character list. -/
def jsTrim (l : List Char) : List Char :=
  ((l.dropWhile isSpaceJS).reverse.dropWhile isSpaceJS).reverse

/-- JS `"…".split(',')` (single-character separator): every separator
occurrence delimits a field, so `"".split(',') = [""]` and
`"A,".split(',') = ["A", ""]`. -/
def splitOnComma : List Char → List (List Char)
  | [] => [[]]
  | c :: rest =>
    if c = ',' then [] :: splitOnComma rest
    else
      match splitOnComma rest with
      | [] => [[c]]
      | h :: t => (c :: h) :: t

/-! ## AnswerGrader (`LearnMode.tsx` / `QuizMode.tsx`)

`getCorrectAnswers` and `checkAnswer` are duplicated verbatim in
`LearnMode.tsx` and `QuizMode.tsx`; one embedding covers both. -/

/-- `getCorrectAnswers` (LearnMode.tsx:134, QuizMode.tsx:…):
`correctAnswer.split(',').map(a => a.trim().toUpperCase())`. -/
def getCorrectAnswers (correctAnswer : String) : List String :=
  (splitOnComma correctAnswer.toList).map
    (fun t => String.mk ((jsTrim t).map Char.toUpper))

/-- Lexicographic code-unit comparison of character lists, the order used by
JS `array.sort()` without a comparator. -/
def listCharLe : List Char → List Char → Bool
  | [], _ => true
  | _ :: _, [] => false
  | a :: as, b :: bs => a < b || (a = b && listCharLe as bs)

/-- The JS default string order as a proposition. -/
def jsLeP (a b : String) : Prop := listCharLe a.toList b.toList = true

instance : DecidableRel jsLeP := fun a b => by
  unfold jsLeP; infer_instance

theorem listCharLe_total : ∀ a b : List Char,
    listCharLe a b = true ∨ listCharLe b a = true := by
  intro a
  induction a with
  | nil => intro b; left; rfl
  | cons x xs ih =>
    intro b
    cases b with
    | nil => right; rfl
    | cons y ys =>
      rcases lt_trichotomy x y with h | h | h
      · left; simp [listCharLe, h]
      · subst h
        rcases ih ys with h2 | h2
        · left; simp [listCharLe, h2]
        · right; simp [listCharLe, h2]
      · right; simp [listCharLe, h]

theorem listCharLe_trans : ∀ a b c : List Char,
    listCharLe a b = true → listCharLe b c = true → listCharLe a c = true := by
  intro a
  induction a with
  | nil => intro b c _ _; rfl
  | cons x xs ih =>
    intro b c hab hbc
    cases b with
    | nil => simp [listCharLe] at hab
    | cons y ys =>
      cases c with
      | nil => simp [listCharLe] at hbc
      | cons z zs =>
        simp only [listCharLe, Bool.or_eq_true, Bool.and_eq_true,
          decide_eq_true_eq] at hab hbc ⊢
        rcases hab with h1 | ⟨h1, h1'⟩
        · rcases hbc with h2 | ⟨h2, h2'⟩
          · exact Or.inl (h1.trans h2)
          · exact Or.inl (h2 ▸ h1)
        · subst h1
          rcases hbc with h2 | ⟨h2, h2'⟩
          · exact Or.inl h2
          · exact Or.inr ⟨h2, ih ys zs h1' h2'⟩

theorem listCharLe_antisymm : ∀ a b : List Char,
    listCharLe a b = true → listCharLe b a = true → a = b := by
  intro a
  induction a with
  | nil =>
    intro b _ hba
    cases b with
    | nil => rfl
    | cons y ys => simp [listCharLe] at hba
  | cons x xs ih =>
    intro b hab hba
    cases b with
    | nil => simp [listCharLe] at hab
    | cons y ys =>
      simp only [listCharLe, Bool.or_eq_true, Bool.and_eq_true,
        decide_eq_true_eq] at hab hba
      rcases hab with h1 | ⟨h1, h1'⟩
      · rcases hba with h2 | ⟨h2, h2'⟩
        · exact absurd (h1.trans h2) (lt_irrefl x)
        · exact absurd h1 (h2 ▸ lt_irrefl x)
      · subst h1
        rcases hba with h2 | ⟨h2, h2'⟩
        · exact absurd h2 (lt_irrefl x)
        · rw [ih ys h1' h2']

instance : IsTotal String jsLeP := ⟨fun a b => listCharLe_total a.toList b.toList⟩

instance : IsTrans String jsLeP :=
  ⟨fun a b c => listCharLe_trans a.toList b.toList c.toList⟩

instance : IsAntisymm String jsLeP :=
  ⟨fun a b h1 h2 => by
    have := listCharLe_antisymm a.toList b.toList h1 h2
    cases a; cases b; simpa [String.toList] using congrArg String.mk this⟩

/-- JS `array.sort()` on an array of strings: sorts lexicographically by
code units. -/
def jsSortStrings (l : List String) : List String :=
  List.insertionSort jsLeP l

/-- `checkAnswer` (LearnMode.tsx:255, QuizMode.tsx:171):
empty selection fails; then the length check; then the two arrays are
sorted and compared element-wise. -/
def checkAnswer (selected : List String) (correct : String) : Bool :=
  if selected.length = 0 then false
  else
    let correctArr := getCorrectAnswers correct
    if selected.length ≠ correctArr.length then false
    else
      let selectedSorted := jsSortStrings selected
      let correctSorted := jsSortStrings correctArr
      (selectedSorted.zip correctSorted).all fun p => p.1 == p.2

/-! ### Grader lemmas -/

theorem zip_all_beq_iff_eq : ∀ (as bs : List String), as.length = bs.length →
    (((as.zip bs).all fun p => p.1 == p.2) = true ↔ as = bs) := by
  intro as
  induction as with
  | nil =>
    intro bs h
    cases bs with
    | nil => simp
    | cons b bs => simp at h
  | cons a as ih =>
    intro bs h
    cases bs with
    | nil => simp at h
    | cons b bs =>
      simp only [List.zip_cons_cons, List.all_cons, Bool.and_eq_true, beq_iff_eq]
      rw [ih bs (by simpa using h)]
      constructor
      · rintro ⟨h1, h2⟩; rw [h1, h2]
      · intro h12; cases h12; exact ⟨rfl, rfl⟩

theorem jsSortStrings_eq_iff_perm (as bs : List String) :
    jsSortStrings as = jsSortStrings bs ↔ as.Perm bs := by
  constructor
  · intro h
    have hbs := List.perm_insertionSort jsLeP bs
    rw [show List.insertionSort jsLeP bs = jsSortStrings bs from rfl, ← h] at hbs
    exact (List.perm_insertionSort jsLeP as).symm.trans hbs
  · intro h
    exact List.eq_of_perm_of_sorted
      (((List.perm_insertionSort jsLeP as).trans h).trans
        (List.perm_insertionSort jsLeP bs).symm)
      (List.sorted_insertionSort jsLeP as) (List.sorted_insertionSort jsLeP bs)

theorem checkAnswer_iff_perm (selected : List String) (correct : String) :
    checkAnswer selected correct = true ↔
      selected ≠ [] ∧ selected.Perm (getCorrectAnswers correct) := by
  simp only [checkAnswer]
  by_cases hnil : selected.length = 0
  · rw [if_pos hnil]
    have hsel : selected = [] := List.length_eq_zero.mp hnil
    subst hsel
    simp
  · rw [if_neg hnil]
    have hne : selected ≠ [] := fun h => hnil (by simp [h])
    by_cases hlen : selected.length ≠ (getCorrectAnswers correct).length
    · rw [if_pos hlen]
      constructor
      · intro h; simp at h
      · rintro ⟨-, hperm⟩; exact absurd hperm.length_eq hlen
    · rw [if_neg hlen]
      have hlen2 : selected.length = (getCorrectAnswers correct).length :=
        not_not.mp hlen
      have hlen' : (jsSortStrings selected).length =
          (jsSortStrings (getCorrectAnswers correct)).length := by
        simp only [jsSortStrings]
        rw [(List.perm_insertionSort jsLeP selected).length_eq,
          (List.perm_insertionSort jsLeP (getCorrectAnswers correct)).length_eq]
        exact hlen2
      rw [zip_all_beq_iff_eq _ _ hlen', jsSortStrings_eq_iff_perm]
      exact ⟨fun h => ⟨hne, h⟩, fun h => h.2⟩

/-- C1 as written is false: with a duplicated token in `correctAnswer` the
selected letters and the correct letters can be equal as sets while grading
still returns false, because the length check compares the raw token
list. -/
theorem C1_counterexample :
    checkAnswer ["A"] "A,A" = false ∧ (["A"] : List String) ≠ [] ∧
      (["A"] : List String).toFinset = (getCorrectAnswers "A,A").toFinset := by
  decide

/-- C1 (amended): grading returns false on the empty selection; otherwise it
returns true iff the selection is a permutation of the token list obtained
from `correctAnswer` (split on comma, trimmed, uppercased) — equivalently,
when both sides are duplicate-free, iff the two letter sets are equal.
Order of selection never affects the result; a duplicated token in
`correctAnswer` makes the comparison fail even when the sets coincide. -/
theorem C1_grade_set_equality (selected : List String) (correct : String) :
    (checkAnswer [] correct = false)
    ∧ (checkAnswer selected correct = true ↔
        selected ≠ [] ∧ selected.Perm (getCorrectAnswers correct))
    ∧ (selected.Nodup → (getCorrectAnswers correct).Nodup →
        (checkAnswer selected correct = true ↔
          selected ≠ [] ∧
            selected.toFinset = (getCorrectAnswers correct).toFinset)) := by
  refine ⟨by simp [checkAnswer], checkAnswer_iff_perm selected correct, ?_⟩
  intro hs hc
  rw [checkAnswer_iff_perm selected correct]
  constructor
  · rintro ⟨hne, hperm⟩
    refine ⟨hne, ?_⟩
    apply Finset.ext
    intro a
    simp only [List.mem_toFinset]
    exact hperm.mem_iff
  · rintro ⟨hne, hfin⟩
    refine ⟨hne, ?_⟩
    rw [List.perm_ext_iff_of_nodup hs hc]
    intro a
    have := Finset.ext_iff.mp hfin a
    simpa using this

theorem C1_witness : checkAnswer ["B", "A"] "a, b" = true :=
  ((C1_grade_set_equality ["B", "A"] "a, b").2.2 (by decide) (by decide)).mpr
    ⟨by decide, by decide⟩

/-- C4 as written is false: `getCorrectAnswers` does not deduplicate, so
`grade(setOf(A,C), "A,C,A")` is false on the code (lengths 2 and 3 differ). -/
theorem C4_counterexample : checkAnswer ["A", "C"] "A,C,A" = false := by
  decide

/-! ## DrillEngine (Learn-mode state machine, `LearnMode.tsx`)

The drill-relevant component state of `LearnMode`.  The question contents
play no role in the transitions, only the number `N` of questions does. -/

structure DrillState where
  currentIndex : Nat
  wrongIndices : List Nat
  isReviewMode : Bool
  reviewIndex : Nat
  masteredCount : Nat
  isComplete : Bool
deriving DecidableEq, Repr

/-- The initial Learn-mode state (`useState` initialisers). -/
def initDrill : DrillState :=
  { currentIndex := 0, wrongIndices := [], isReviewMode := false,
    reviewIndex := 0, masteredCount := 0, isComplete := false }

/-- `checkAndShowAnswer` (LearnMode.tsx:191): on a correct answer increment
`masteredCount`; on an incorrect answer outside review mode append the
current index to `wrongIndices` unless it is already queued. -/
def recordAnswer (s : DrillState) (wasCorrect : Bool) : DrillState :=
  if wasCorrect then { s with masteredCount := s.masteredCount + 1 }
  else if s.isReviewMode = false ∧ s.currentIndex ∉ s.wrongIndices then
    { s with wrongIndices := s.wrongIndices ++ [s.currentIndex] }
  else s

/-- `advanceToNext` (LearnMode.tsx:210) for a set of `N` questions.
`prevWrong.filter((_, i) => i !== reviewIndex)` removes exactly the element
at position `reviewIndex`, i.e. `List.eraseIdx`. -/
def advanceToNext (N : Nat) (s : DrillState) (wasCorrect : Bool) : DrillState :=
  if s.isReviewMode then
    if wasCorrect then
      let newWrong := s.wrongIndices.eraseIdx s.reviewIndex
      if newWrong.length = 0 then
        { s with wrongIndices := newWrong, isComplete := true }
      else if s.reviewIndex ≥ newWrong.length then
        { s with wrongIndices := newWrong, reviewIndex := 0 }
      else { s with wrongIndices := newWrong }
    else
      { s with reviewIndex :=
          if s.reviewIndex < s.wrongIndices.length - 1 then s.reviewIndex + 1
          else 0 }
  else
    if s.currentIndex < N - 1 then { s with currentIndex := s.currentIndex + 1 }
    else if s.wrongIndices.length > 0 then
      { s with isReviewMode := true, reviewIndex := 0 }
    else { s with isComplete := true }

/-- One full answer interaction: `checkAndShowAnswer` followed by
`advanceToNext` (via the auto-advance timeout on correct, the Got-it button
on incorrect).  Once `isComplete` the component renders the completion
screen and no further answers are possible, so stepping is the identity. -/
def drillStep (N : Nat) (s : DrillState) (b : Bool) : DrillState :=
  if s.isComplete then s else advanceToNext N (recordAnswer s b) b

/-- A whole session driven by a list of correctness outcomes. -/
def runDrill (N : Nat) (outs : List Bool) : DrillState :=
  outs.foldl (drillStep N) initDrill

/-- States reachable from the initial Learn-mode state. -/
inductive DrillReachable (N : Nat) : DrillState → Prop
  | init : DrillReachable N initDrill
  | step {s : DrillState} (b : Bool) :
      DrillReachable N s → DrillReachable N (drillStep N s b)

/-- The inductive invariant of the drill: the missed queue is
duplicate-free and in range; the mastered count balances the queue against
the cursor (primary) or against `N` (review); the review cursor stays in
bounds; completion empties the queue with everything mastered. -/
def DrillInv (N : Nat) (s : DrillState) : Prop :=
  s.wrongIndices.Nodup ∧ (∀ x ∈ s.wrongIndices, x < N) ∧
  (s.isComplete = true → s.masteredCount = N ∧ s.wrongIndices = []) ∧
  (s.isComplete = false → s.isReviewMode = true →
    s.masteredCount + s.wrongIndices.length = N ∧
      s.wrongIndices ≠ [] ∧ s.reviewIndex < s.wrongIndices.length) ∧
  (s.isComplete = false → s.isReviewMode = false →
    s.masteredCount + s.wrongIndices.length = s.currentIndex ∧
      s.currentIndex < N ∧ ∀ x ∈ s.wrongIndices, x < s.currentIndex)

theorem drillInv_init (N : Nat) (hN : 1 ≤ N) : DrillInv N initDrill := by
  refine ⟨List.nodup_nil, by simp [initDrill], by simp [initDrill],
    by simp [initDrill], ?_⟩
  intro _ _
  refine ⟨by simp [initDrill], by simpa [initDrill] using hN, by simp [initDrill]⟩

theorem drillInv_step (N : Nat) (s : DrillState) (b : Bool)
    (hinv : DrillInv N s) : DrillInv N (drillStep N s b) := by
  obtain ⟨ci, wr, rv, ri, mc, cp⟩ := s
  obtain ⟨hnd, hlt, hcomp, hrev, hprim⟩ := hinv
  dsimp only at hnd hlt hcomp hrev hprim
  cases cp with
  | true =>
    exact ⟨hnd, hlt, hcomp, hrev, hprim⟩
  | false =>
    cases rv with
    | true =>
      obtain ⟨hbal, hne, hri⟩ := hrev rfl rfl
      cases b with
      | false =>
        have hstep : drillStep N ⟨ci, wr, true, ri, mc, false⟩ false =
            ⟨ci, wr, true, if ri < wr.length - 1 then ri + 1 else 0, mc, false⟩ := by
          simp [drillStep, recordAnswer, advanceToNext]
        rw [hstep]
        refine ⟨hnd, hlt, by simp, ?_, by simp⟩
        intro _ _
        dsimp only
        refine ⟨hbal, hne, ?_⟩
        by_cases hlast : ri < wr.length - 1
        · rw [if_pos hlast]; omega
        · rw [if_neg hlast]; exact List.length_pos.mpr hne
      | true =>
        have hlen := List.length_eraseIdx_add_one hri
        have hnd2 : (wr.eraseIdx ri).Nodup := List.Nodup.eraseIdx _ hnd
        have hlt2 : ∀ x ∈ wr.eraseIdx ri, x < N :=
          fun x hx => hlt x (List.eraseIdx_subset _ _ hx)
        by_cases hzero : (wr.eraseIdx ri).length = 0
        · have hstep : drillStep N ⟨ci, wr, true, ri, mc, false⟩ true =
              ⟨ci, wr.eraseIdx ri, true, ri, mc + 1, true⟩ := by
            simp [drillStep, recordAnswer, advanceToNext, hzero]
          rw [hstep]
          refine ⟨hnd2, hlt2, ?_, by simp, by simp⟩
          intro _
          dsimp only
          exact ⟨by omega, List.length_eq_zero.mp hzero⟩
        · by_cases hwrap : ri ≥ (wr.eraseIdx ri).length
          · have hstep : drillStep N ⟨ci, wr, true, ri, mc, false⟩ true =
                ⟨ci, wr.eraseIdx ri, true, 0, mc + 1, false⟩ := by
              simp [drillStep, recordAnswer, advanceToNext, hzero, hwrap]
            rw [hstep]
            refine ⟨hnd2, hlt2, by simp, ?_, by simp⟩
            intro _ _
            dsimp only
            exact ⟨by omega, fun h => hzero (by simp [h]), by omega⟩
          · have hstep : drillStep N ⟨ci, wr, true, ri, mc, false⟩ true =
                ⟨ci, wr.eraseIdx ri, true, ri, mc + 1, false⟩ := by
              simp [drillStep, recordAnswer, advanceToNext, hzero, hwrap]
            rw [hstep]
            refine ⟨hnd2, hlt2, by simp, ?_, by simp⟩
            intro _ _
            dsimp only
            exact ⟨by omega, fun h => hzero (by simp [h]), by omega⟩
    | false =>
      obtain ⟨hbal, hcur, hbelow⟩ := hprim rfl rfl
      cases b with
      | true =>
        by_cases hlast : ci < N - 1
        · have hstep : drillStep N ⟨ci, wr, false, ri, mc, false⟩ true =
              ⟨ci + 1, wr, false, ri, mc + 1, false⟩ := by
            simp [drillStep, recordAnswer, advanceToNext, hlast]
          rw [hstep]
          refine ⟨hnd, hlt, by simp, by simp, ?_⟩
          intro _ _
          dsimp only
          exact ⟨by omega, by omega, fun x hx => Nat.lt_succ_of_lt (hbelow x hx)⟩
        · by_cases hq : wr.length > 0
          · have hstep : drillStep N ⟨ci, wr, false, ri, mc, false⟩ true =
                ⟨ci, wr, true, 0, mc + 1, false⟩ := by
              simp [drillStep, recordAnswer, advanceToNext, hlast, hq]
            rw [hstep]
            refine ⟨hnd, hlt, by simp, ?_, by simp⟩
            intro _ _
            dsimp only
            exact ⟨by omega, fun h => by simp [h] at hq, by omega⟩
          · have hwr : wr = [] := List.length_eq_zero.mp (by omega)
            subst hwr
            have hstep : drillStep N ⟨ci, [], false, ri, mc, false⟩ true =
                ⟨ci, [], false, ri, mc + 1, true⟩ := by
              simp [drillStep, recordAnswer, advanceToNext, hlast]
            rw [hstep]
            refine ⟨hnd, hlt, ?_, by simp, by simp⟩
            intro _
            dsimp only
            simp only [List.length_nil] at hbal
            exact ⟨by omega, rfl⟩
      | false =>
        have hmem : ci ∉ wr := fun h => absurd (hbelow _ h) (lt_irrefl _)
        have hnd2 : (wr ++ [ci]).Nodup := by simp [List.nodup_append, hnd, hmem]
        have hlt2 : ∀ x ∈ wr ++ [ci], x < N := by
          intro x hx
          rcases List.mem_append.mp hx with h | h
          · exact hlt x h
          · simp at h; omega
        by_cases hlast : ci < N - 1
        · have hstep : drillStep N ⟨ci, wr, false, ri, mc, false⟩ false =
              ⟨ci + 1, wr ++ [ci], false, ri, mc, false⟩ := by
            simp [drillStep, recordAnswer, advanceToNext, hmem, hlast]
          rw [hstep]
          refine ⟨hnd2, hlt2, by simp, by simp, ?_⟩
          intro _ _
          dsimp only
          refine ⟨by simp; omega, by omega, ?_⟩
          intro x hx
          rcases List.mem_append.mp hx with h | h
          · exact Nat.lt_succ_of_lt (hbelow x h)
          · simp at h; omega
        · have hstep : drillStep N ⟨ci, wr, false, ri, mc, false⟩ false =
              ⟨ci, wr ++ [ci], true, 0, mc, false⟩ := by
            simp [drillStep, recordAnswer, advanceToNext, hmem, hlast]
          rw [hstep]
          refine ⟨hnd2, hlt2, by simp, ?_, by simp⟩
          intro _ _
          dsimp only
          exact ⟨by simp; omega, by simp, by simp⟩

theorem drillInv_reachable {N : Nat} {s : DrillState} (hN : 1 ≤ N)
    (h : DrillReachable N s) : DrillInv N s := by
  induction h with
  | init => exact drillInv_init N hN
  | step b _ ih => exact drillInv_step N _ b ih

/-! ### C2: full-session property -/

/-- Repeatedly applying record-answer and advance, driven by the infinite
outcome sequence `outs`. -/
def runDrillStream (N : Nat) (outs : Nat → Bool) : Nat → DrillState
  | 0 => initDrill
  | k + 1 => drillStep N (runDrillStream N outs k) (outs k)

/-- `Complete` is eventually reached when the drill is driven by `outs`. -/
def drillReachesComplete (N : Nat) (outs : Nat → Bool) : Prop :=
  ∃ k : Nat, (runDrillStream N outs k).isComplete = true

/-- The review state an all-incorrect session on a single question gets
stuck in. -/
def stuckReview : DrillState :=
  { currentIndex := 0, wrongIndices := [0], isReviewMode := true,
    reviewIndex := 0, masteredCount := 0, isComplete := false }

theorem allFalse_stuck (k : Nat) :
    runDrillStream 1 (fun _ => false) (k + 1) = stuckReview := by
  induction k with
  | zero => decide
  | succ k ih =>
    show drillStep 1 (runDrillStream 1 (fun _ => false) (k + 1)) false = stuckReview
    rw [ih]
    decide

/-- C2 as written is false: with one question and every answer incorrect,
the engine cycles in the Review phase forever and never reaches
`Complete`. -/
theorem C2_counterexample : ¬ drillReachesComplete 1 (fun _ => false) := by
  rintro ⟨k, hk⟩
  cases k with
  | zero => exact absurd hk (by decide)
  | succ k =>
    rw [allFalse_stuck k] at hk
    exact absurd hk (by decide)

/-- C2 (amended): completion is not reached for every outcome sequence (an
all-incorrect session never completes), but whenever a finite session does
end in `Complete`, `masteredCount` equals `N` — the mastery events add up
to exactly one per question; and the all-correct outcome sequence of
length `N` does reach `Complete`. -/
theorem C2_complete_mastery (N : Nat) (outs : List Bool) (hN : 1 ≤ N) :
    ((runDrill N outs).isComplete = true → (runDrill N outs).masteredCount = N)
    ∧ (runDrill N (List.replicate N true)).isComplete = true := by
  have hreach : DrillReachable N (runDrill N outs) := by
    unfold runDrill
    induction outs using List.reverseRecOn with
    | nil => exact DrillReachable.init
    | append_singleton l b ih =>
      rw [List.foldl_append]
      exact DrillReachable.step b ih
  constructor
  · intro hdone
    exact ((drillInv_reachable hN hreach).2.2.1 hdone).1
  · have key : ∀ m j, 1 ≤ m → j + m = N →
        (List.replicate m true).foldl (drillStep N)
          { currentIndex := j, wrongIndices := [], isReviewMode := false,
            reviewIndex := 0, masteredCount := j, isComplete := false } =
        { currentIndex := N - 1, wrongIndices := [], isReviewMode := false,
          reviewIndex := 0, masteredCount := N, isComplete := true } := by
      intro m
      induction m with
      | zero => intro j h1 hj; omega
      | succ m ih =>
        intro j h1 hj
        rw [List.replicate_succ, List.foldl_cons]
        by_cases hlast : j < N - 1
        · have hstep : drillStep N
              { currentIndex := j, wrongIndices := [], isReviewMode := false,
                reviewIndex := 0, masteredCount := j, isComplete := false } true =
              { currentIndex := j + 1, wrongIndices := [], isReviewMode := false,
                reviewIndex := 0, masteredCount := j + 1, isComplete := false } := by
            simp [drillStep, recordAnswer, advanceToNext, hlast]
          rw [hstep]
          exact ih (j + 1) (by omega) (by omega)
        · have hm : m = 0 := by omega
          have hj2 : j = N - 1 := by omega
          subst hm hj2
          have hN1 : N - 1 + 1 = N := by omega
          have hstep : drillStep N
              { currentIndex := N - 1, wrongIndices := [], isReviewMode := false,
                reviewIndex := 0, masteredCount := N - 1, isComplete := false } true =
              { currentIndex := N - 1, wrongIndices := [], isReviewMode := false,
                reviewIndex := 0, masteredCount := N, isComplete := true } := by
            simp only [drillStep, recordAnswer, advanceToNext]
            rw [hN1]
            simp [hlast]
          rw [hstep]
          simp
    have h0 := key N 0 (by omega) (by omega)
    unfold runDrill initDrill
    rw [h0]

theorem C2_witness :
    (runDrill 1 [false, true]).masteredCount = 1 ∧
      (runDrill 1 (List.replicate 1 true)).isComplete = true :=
  ⟨(C2_complete_mastery 1 [false, true] (by decide)).1 (by decide),
    (C2_complete_mastery 1 [false, true] (by decide)).2⟩

/-! ### C6: missed-queue discipline -/

/-- C6: in every reachable state the missed queue is duplicate-free; in the
Primary phase an incorrect answer appends the cursor only when absent; and
once the Primary phase has ended (Review or Complete) a step never grows
the queue — it is unchanged or loses exactly one element. -/
theorem C6_queue_discipline (N : Nat) (s : DrillState) (b : Bool)
    (hN : 1 ≤ N) (hreach : DrillReachable N s) :
    s.wrongIndices.Nodup
    ∧ (s.isReviewMode = false → s.isComplete = false →
        (drillStep N s false).wrongIndices =
          (if s.currentIndex ∈ s.wrongIndices then s.wrongIndices
           else s.wrongIndices ++ [s.currentIndex]))
    ∧ (s.isReviewMode = true ∨ s.isComplete = true →
        (drillStep N s b).wrongIndices = s.wrongIndices ∨
          (drillStep N s b).wrongIndices.length + 1 = s.wrongIndices.length) := by
  obtain ⟨hnd, hlt, hcomp, hrev, hprim⟩ := drillInv_reachable hN hreach
  obtain ⟨ci, wr, rv, ri, mc, cp⟩ := s
  dsimp only at hnd hlt hcomp hrev hprim ⊢
  refine ⟨hnd, ?_, ?_⟩
  · intro hr hc
    cases hr; cases hc
    by_cases hmem : ci ∈ wr
    · simp [drillStep, recordAnswer, advanceToNext, hmem]
      split_ifs <;> rfl
    · simp only [if_neg hmem]
      simp only [drillStep, recordAnswer, advanceToNext, Bool.false_eq_true,
        if_false, reduceIte, hmem, not_false_eq_true, and_true]
      split_ifs <;> rfl
  · intro hrc
    cases cp with
    | true => left; rfl
    | false =>
      have hr : rv = true := by
        rcases hrc with h | h
        · exact h
        · exact absurd h (by simp)
      cases hr
      obtain ⟨-, hne, hri⟩ := hrev rfl rfl
      cases b with
      | false =>
        left
        simp [drillStep, recordAnswer, advanceToNext]
      | true =>
        right
        have hlen := List.length_eraseIdx_add_one hri
        simp only [drillStep, recordAnswer, advanceToNext, Bool.false_eq_true,
          if_false, reduceIte]
        split_ifs <;> simpa using hlen

theorem C6_witness :
    stuckReview.wrongIndices.Nodup
    ∧ (stuckReview.isReviewMode = true ∨ stuckReview.isComplete = true →
        (drillStep 1 stuckReview true).wrongIndices = stuckReview.wrongIndices ∨
          (drillStep 1 stuckReview true).wrongIndices.length + 1 =
            stuckReview.wrongIndices.length) := by
  have hreach : DrillReachable 1 stuckReview := by
    have h1 : drillStep 1 initDrill false = stuckReview := by decide
    have h2 := DrillReachable.step (N := 1) false DrillReachable.init
    rwa [h1] at h2
  have h := C6_queue_discipline 1 stuckReview true (by decide) hreach
  exact ⟨h.1, h.2.2⟩

/-! ### C10: review-cursor bounds -/

/-- C10: in every reachable state that is in the Review phase with a
non-empty missed queue, the review cursor is a valid index, so the current
review question lookup `questions[wrongIndices[reviewIndex]]` never indexes
out of bounds. -/
theorem C10_review_cursor_in_bounds (N : Nat) (s : DrillState)
    (hN : 1 ≤ N) (hreach : DrillReachable N s)
    (hr : s.isReviewMode = true) (hne : s.wrongIndices ≠ []) :
    s.reviewIndex < s.wrongIndices.length := by
  obtain ⟨-, -, hcomp, hrev, -⟩ := drillInv_reachable hN hreach
  by_cases hc : s.isComplete = true
  · exact absurd (hcomp hc).2 hne
  · exact (hrev (by simpa using hc) hr).2.2

theorem C10_witness : stuckReview.reviewIndex < stuckReview.wrongIndices.length := by
  have hreach : DrillReachable 1 stuckReview := by
    have h1 : drillStep 1 initDrill false = stuckReview := by decide
    have h2 := DrillReachable.step (N := 1) false DrillReachable.init
    rwa [h1] at h2
  exact C10_review_cursor_in_bounds 1 stuckReview (by decide) hreach
    (by decide) (by decide)

/-! ## ChoiceParser (`LearnMode.tsx` `parseChoices`, SetView `parseChoices`)

Two drifted copies of the choice parser exist: `LearnMode.tsx` uses the
regex `([A-E])[.)]\s*([\s\S]*?)(?=(?:[A-E][.)]\s)|$)/gi`, the SetView
component the same with `[A-J]`.  The scan below reproduces the regex
`exec` loop: a match starts at any letter followed by `.` or `)` (the
`\s*` after the delimiter may be empty), greedily consumes the whitespace
run, and the lazy body extends to the first position where the lookahead
`[A-J][.)]\s` holds, or to the end of the string. -/

/-- The `[.)]` delimiter class. -/
def isDelimJS (c : Char) : Bool := c = '.' || c = ')'

/-- `[A-E]` with the `i` flag. -/
def isLetterAEi (c : Char) : Bool :=
  ('A' ≤ c && c ≤ 'E') || ('a' ≤ c && c ≤ 'e')

/-- `[A-J]` with the `i` flag. -/
def isLetterAJi (c : Char) : Bool :=
  ('A' ≤ c && c ≤ 'J') || ('a' ≤ c && c ≤ 'j')

/-- The lookahead `(?=[A-?][.)]\s)`: letter, delimiter, one whitespace. -/
def markerAt (isL : Char → Bool) : List Char → Bool
  | a :: d :: w :: _ => isL a && isDelimJS d && isSpaceJS w
  | _ => false

/-- Split off the lazy choice body: everything up to the first position
where the next-marker lookahead holds (or the whole rest of the input). -/
def takeBody (isL : Char → Bool) : List Char → List Char × List Char
  | [] => ([], [])
  | c :: rest =>
    if markerAt isL (c :: rest) then ([], c :: rest)
    else
      let p := takeBody isL rest
      (c :: p.1, p.2)

/-- One raw regex match: captured letter (uppercased), raw body, index. -/
structure RawMatch where
  letter : Char
  body : List Char
  idx : Nat
deriving DecidableEq, Repr

/-- The regex `exec` loop.  `skip` counts characters still belonging to the
previous match (its delimiter, whitespace run and body); scanning resumes
after them.  A new match needs only letter + delimiter — the whitespace
and body may be empty. -/
def scanAux (isL : Char → Bool) : Nat → Nat → List Char → List RawMatch
  | _ + 1, _, [] => []
  | skip + 1, idx, _ :: rest => scanAux isL skip (idx + 1) rest
  | 0, _, [] => []
  | 0, idx, c :: rest =>
    match rest with
    | [] => []
    | d :: rest2 =>
      if isL c && isDelimJS d then
        ⟨c.toUpper, (takeBody isL (rest2.dropWhile isSpaceJS)).1, idx⟩ ::
          scanAux isL
            (1 + (rest2.takeWhile isSpaceJS).length +
              (takeBody isL (rest2.dropWhile isSpaceJS)).1.length)
            (idx + 1) rest
      else scanAux isL 0 (idx + 1) rest

/-- All matches of the choice regex on `l`. -/
def scanChoices (isL : Char → Bool) (l : List Char) : List RawMatch :=
  scanAux isL 0 0 l

/-- JS `replace(/\s+/g, ' ')`: collapse every whitespace run to one space. -/
def collapseWsAux : Bool → List Char → List Char
  | _, [] => []
  | inSp, c :: rest =>
    if isSpaceJS c then
      if inSp then collapseWsAux true rest else ' ' :: collapseWsAux true rest
    else c :: collapseWsAux false rest

def collapseWs (l : List Char) : List Char := collapseWsAux false l

/-- A pushed match after trimming/collapsing, still carrying its index. -/
structure ChoiceMatch where
  letter : Char
  text : List Char
  idx : Nat
deriving DecidableEq, Repr

/-- The body of the `while` loop: push `(letter, cleaned text, index)` only
when the cleaned text is non-empty and the letter is not yet present. -/
def pushMatches : List RawMatch → List ChoiceMatch → List ChoiceMatch
  | [], acc => acc
  | m :: rest, acc =>
    let choiceText := collapseWs (jsTrim m.body)
    if choiceText ≠ [] ∧ ¬ acc.any (fun a => a.letter = m.letter) then
      pushMatches rest (acc ++ [⟨m.letter, choiceText, m.idx⟩])
    else pushMatches rest acc

/-- `matches.sort((a, b) => a.letter.localeCompare(b.letter))` — for single
uppercase ASCII letters `localeCompare` is code-point order. -/
def byLetter (a b : ChoiceMatch) : Prop := a.letter ≤ b.letter

instance : DecidableRel byLetter := fun a b =>
  inferInstanceAs (Decidable (a.letter ≤ b.letter))

instance : IsTotal ChoiceMatch byLetter := ⟨fun a b => le_total a.letter b.letter⟩

instance : IsTrans ChoiceMatch byLetter :=
  ⟨fun _ _ _ h1 h2 => le_trans h1 h2⟩

/-- `Math.min(...matches.map(m => m.index))`. -/
def minIdx : List ChoiceMatch → Nat
  | [] => 0
  | m :: rest => rest.foldl (fun a x => Nat.min a x.idx) m.idx

/-- One parsed choice as returned to the caller. -/
structure ParsedChoice where
  letter : Char
  text : String
deriving DecidableEq, Repr

/-- Result of `parseChoices`. -/
structure ChoicesResult where
  questionPart : String
  choices : List ParsedChoice
deriving DecidableEq, Repr

/-- `parseChoices` (LearnMode.tsx:139 with `[A-E]`, SetView with `[A-J]`):
scan, dedup/push, sort by letter; the stem is the text before the earliest
kept match, whitespace-collapsed and trimmed. -/
def parseChoicesWith (isL : Char → Bool) (text : String) : ChoicesResult :=
  let ms := pushMatches (scanChoices isL text.toList) []
  let sorted := List.insertionSort byLetter ms
  let qp0 :=
    if ms.length > 0 then jsTrim (text.toList.take (minIdx ms))
    else text.toList
  let questionPart := jsTrim (collapseWs qp0)
  { questionPart := String.mk questionPart,
    choices := sorted.map (fun m => { letter := m.letter, text := String.mk m.text }) }

/-- The `LearnMode.tsx` variant (`[A-E]`). -/
def parseChoicesLearn (text : String) : ChoicesResult :=
  parseChoicesWith isLetterAEi text

/-- The SetView variant (`[A-J]`). -/
def parseChoicesSetView (text : String) : ChoicesResult :=
  parseChoicesWith isLetterAJi text

/-! ### C5: dedup + letter-sorted choices -/

theorem pushMatches_letter_nodup :
    ∀ (rms : List RawMatch) (acc : List ChoiceMatch),
      (acc.map (fun a => a.letter)).Nodup →
      ((pushMatches rms acc).map (fun a => a.letter)).Nodup := by
  intro rms
  induction rms with
  | nil => intro acc h; exact h
  | cons m rest ih =>
    intro acc h
    simp only [pushMatches]
    split_ifs with hcond
    · refine ih _ ?_
      rw [List.map_append]
      simp only [List.map_cons, List.map_nil]
      rw [List.nodup_append]
      refine ⟨h, List.nodup_singleton _, ?_⟩
      intro x hx
      simp only [List.mem_singleton]
      intro hxm
      subst hxm
      rcases List.mem_map.mp hx with ⟨a, ha, hal⟩
      exact hcond.2 (List.any_eq_true.mpr ⟨a, ha, by simp [hal]⟩)
    · exact ih acc h

theorem parseChoicesWith_letters_sorted (isL : Char → Bool) (text : String) :
    ((parseChoicesWith isL text).choices.map (fun c => c.letter)).Nodup ∧
      List.Pairwise (· < ·)
        ((parseChoicesWith isL text).choices.map (fun c => c.letter)) := by
  have hmap : (parseChoicesWith isL text).choices.map (fun c => c.letter) =
      (List.insertionSort byLetter
        (pushMatches (scanChoices isL text.toList) [])).map
        (fun m => m.letter) := by
    simp [parseChoicesWith]
  rw [hmap]
  set pm := pushMatches (scanChoices isL text.toList) [] with hpm
  have hnd0 : (pm.map (fun a => a.letter)).Nodup :=
    pushMatches_letter_nodup _ [] (by simp)
  have hperm : List.Perm
      ((List.insertionSort byLetter pm).map (fun m => m.letter))
      (pm.map (fun a => a.letter)) :=
    (List.perm_insertionSort byLetter pm).map _
  have hnd : ((List.insertionSort byLetter pm).map (fun m => m.letter)).Nodup :=
    hperm.nodup_iff.mpr hnd0
  refine ⟨hnd, ?_⟩
  have hsorted : List.Sorted byLetter (List.insertionSort byLetter pm) :=
    List.sorted_insertionSort byLetter pm
  have hle : List.Pairwise (· ≤ ·)
      ((List.insertionSort byLetter pm).map (fun m => m.letter)) := by
    rw [List.pairwise_map]
    exact hsorted
  have hne : List.Pairwise (· ≠ ·)
      ((List.insertionSort byLetter pm).map (fun m => m.letter)) := hnd
  exact (hle.and hne).imp (fun h => lt_of_le_of_ne h.1 h.2)

/-- C5: for every input and for both parser variants, the returned choices
carry pairwise-distinct letters sorted strictly ascending regardless of
marker positions; `"B. foo A. bar"` parses to letters `[A, B]`, and a
duplicated letter keeps its first occurrence. -/
theorem C5_choices_sorted_dedup :
    (∀ text : String,
      ((parseChoicesLearn text).choices.map (fun c => c.letter)).Nodup ∧
      List.Pairwise (· < ·)
        ((parseChoicesLearn text).choices.map (fun c => c.letter)) ∧
      ((parseChoicesSetView text).choices.map (fun c => c.letter)).Nodup ∧
      List.Pairwise (· < ·)
        ((parseChoicesSetView text).choices.map (fun c => c.letter)))
    ∧ (parseChoicesLearn "B. foo A. bar").choices =
        [{ letter := 'A', text := "bar" }, { letter := 'B', text := "foo" }]
    ∧ (parseChoicesSetView "B. foo A. bar").choices =
        [{ letter := 'A', text := "bar" }, { letter := 'B', text := "foo" }]
    ∧ (parseChoicesLearn "A. one B. two A. three").choices =
        [{ letter := 'A', text := "one" }, { letter := 'B', text := "two" }] := by
  refine ⟨?_, by decide, by decide, by decide⟩
  intro text
  obtain ⟨h1, h2⟩ := parseChoicesWith_letters_sorted isLetterAEi text
  obtain ⟨h3, h4⟩ := parseChoicesWith_letters_sorted isLetterAJi text
  exact ⟨h1, h2, h3, h4⟩

/-! ### C3: which letters the scan recognises -/

theorem drop_append_offset {α : Type} :
    ∀ (l₁ l₂ : List α) (i : Nat), (l₁ ++ l₂).drop (l₁.length + i) = l₂.drop i := by
  intro l₁
  induction l₁ with
  | nil => intro l₂ i; simp
  | cons a t ih =>
    intro l₂ i
    rw [List.cons_append, List.length_cons, Nat.succ_add, List.drop_succ_cons]
    exact ih l₂ i

theorem markerAt_eq_true (isL : Char → Bool) {l : List Char}
    (h : markerAt isL l = true) :
    ∃ a d w t, l = a :: d :: w :: t ∧ isL a = true ∧ isDelimJS d = true ∧
      isSpaceJS w = true := by
  cases l with
  | nil => simp [markerAt] at h
  | cons a t1 =>
    cases t1 with
    | nil => simp [markerAt] at h
    | cons d t2 =>
      cases t2 with
      | nil => simp [markerAt] at h
      | cons w t =>
        simp only [markerAt, Bool.and_eq_true] at h
        exact ⟨a, d, w, t, rfl, h.1.1, h.1.2, h.2⟩

theorem takeBody_split (isL : Char → Bool) :
    ∀ l : List Char, (takeBody isL l).1 ++ (takeBody isL l).2 = l := by
  intro l
  induction l with
  | nil => rfl
  | cons c rest ih =>
    simp only [takeBody]
    split_ifs with h
    · rfl
    · simpa using ih

theorem takeBody_no_marker (isL : Char → Bool) :
    ∀ (l : List Char) (p : Nat), p < (takeBody isL l).1.length →
      markerAt isL (l.drop p) = false := by
  intro l
  induction l with
  | nil => intro p h; simp [takeBody] at h
  | cons c rest ih =>
    intro p h
    simp only [takeBody] at h
    split_ifs at h with hm
    · simp at h
    · cases p with
      | zero =>
        simpa using Bool.eq_false_iff.mpr hm
      | succ p =>
        rw [List.drop_succ_cons]
        apply ih
        simpa using h

theorem takeWhile_drop_head (q : Char → Bool) :
    ∀ (l : List Char) (p : Nat), p < (l.takeWhile q).length →
      ∃ x xs, l.drop p = x :: xs ∧ q x = true := by
  intro l
  induction l with
  | nil => intro p h; simp at h
  | cons c rest ih =>
    intro p h
    by_cases hq : q c = true
    · cases p with
      | zero => exact ⟨c, rest, rfl, hq⟩
      | succ p =>
        rw [List.drop_succ_cons]
        apply ih
        rw [List.takeWhile_cons, if_pos hq] at h
        simpa using h
    · rw [List.takeWhile_cons, if_neg hq] at h
      simp at h

theorem scanAux_finds_marker (isL : Char → Bool)
    (hS : ∀ c, isSpaceJS c = true → isL c = false)
    (hD : ∀ c, isDelimJS c = true → isL c = false) :
    ∀ (l : List Char) (skip idx j : Nat), skip ≤ j →
      markerAt isL (l.drop j) = true →
      ∃ m, m ∈ scanAux isL skip idx l ∧ m.idx = idx + j ∧
        m.letter = ((l.drop j).headD ' ').toUpper := by
  intro l
  induction l with
  | nil =>
    intro skip idx j hsk hm
    rw [List.drop_nil] at hm
    simp [markerAt] at hm
  | cons c rest ih =>
    intro skip idx j hsk hm
    cases skip with
    | succ sk =>
      cases j with
      | zero => omega
      | succ j =>
        rw [List.drop_succ_cons] at hm
        obtain ⟨m, hmem, hidx, hlet⟩ := ih sk (idx + 1) j (by omega) hm
        refine ⟨m, ?_, by omega, by simpa using hlet⟩
        simp only [scanAux]
        exact hmem
    | zero =>
      cases rest with
      | nil =>
        exfalso
        cases j with
        | zero => simp [markerAt] at hm
        | succ j =>
          rw [List.drop_succ_cons, List.drop_nil] at hm
          simp [markerAt] at hm
      | cons d rest2 =>
        by_cases hhead : (isL c && isDelimJS d) = true
        · rw [show scanAux isL 0 idx (c :: d :: rest2) =
              ⟨c.toUpper, (takeBody isL (rest2.dropWhile isSpaceJS)).1, idx⟩ ::
                scanAux isL
                  (1 + (rest2.takeWhile isSpaceJS).length +
                    (takeBody isL (rest2.dropWhile isSpaceJS)).1.length)
                  (idx + 1) (d :: rest2) from by
            simp only [scanAux]
            rw [if_pos hhead]]
          cases j with
          | zero =>
            refine ⟨_, List.mem_cons_self _ _, by simp, ?_⟩
            simp
          | succ j0 =>
            rw [List.drop_succ_cons] at hm
            by_cases hz : 1 + (rest2.takeWhile isSpaceJS).length +
                (takeBody isL (rest2.dropWhile isSpaceJS)).1.length ≤ j0
            · obtain ⟨m, hmem, hidx, hlet⟩ := ih _ (idx + 1) j0 hz hm
              exact ⟨m, List.mem_cons_of_mem _ hmem, by omega, by simpa using hlet⟩
            · exfalso
              cases j0 with
              | zero =>
                rw [List.drop_zero] at hm
                obtain ⟨a, d2, w, t, heq, ha, -, -⟩ := markerAt_eq_true isL hm
                have hda : d = a := by injection heq
                have hdf : isL d = false := by
                  have hh := hhead
                  simp only [Bool.and_eq_true] at hh
                  exact hD d hh.2
                rw [hda] at hdf
                rw [hdf] at ha
                exact Bool.false_ne_true ha
              | succ j1 =>
                rw [List.drop_succ_cons] at hm
                by_cases hB : j1 < (rest2.takeWhile isSpaceJS).length
                · obtain ⟨x, xs, hxeq, hxsp⟩ :=
                    takeWhile_drop_head isSpaceJS rest2 j1 hB
                  rw [hxeq] at hm
                  obtain ⟨a, d2, w, t, heq, ha, -, -⟩ := markerAt_eq_true isL hm
                  have hxa : x = a := by injection heq
                  rw [hxa] at hxsp
                  rw [hS a hxsp] at ha
                  exact Bool.false_ne_true ha
                · have halign : rest2.drop j1 =
                      (rest2.dropWhile isSpaceJS).drop
                        (j1 - (rest2.takeWhile isSpaceJS).length) := by
                    conv_lhs =>
                      rw [show rest2 = rest2.takeWhile isSpaceJS ++
                          rest2.dropWhile isSpaceJS from
                        (List.takeWhile_append_dropWhile _ _).symm]
                      rw [show j1 = (rest2.takeWhile isSpaceJS).length +
                          (j1 - (rest2.takeWhile isSpaceJS).length) from by omega]
                    exact drop_append_offset _ _ _
                  rw [halign] at hm
                  have hp : j1 - (rest2.takeWhile isSpaceJS).length <
                      (takeBody isL (rest2.dropWhile isSpaceJS)).1.length := by
                    omega
                  rw [takeBody_no_marker isL _ _ hp] at hm
                  exact Bool.false_ne_true hm
        · rw [show scanAux isL 0 idx (c :: d :: rest2) =
              scanAux isL 0 (idx + 1) (d :: rest2) from by
            simp only [scanAux]
            rw [if_neg hhead]]
          cases j with
          | zero =>
            exfalso
            rw [List.drop_zero] at hm
            obtain ⟨a, d2, w, t, heq, ha, hd2, -⟩ := markerAt_eq_true isL hm
            have hca : c = a := by injection heq
            have hdd : d = d2 := by
              injection heq with h1 h2
              injection h2
            apply hhead
            rw [Bool.and_eq_true]
            exact ⟨hca ▸ ha, hdd ▸ hd2⟩
          | succ j0 =>
            rw [List.drop_succ_cons] at hm
            obtain ⟨m, hmem, hidx, hlet⟩ := ih 0 (idx + 1) j0 (by omega) hm
            exact ⟨m, hmem, by omega, by simpa using hlet⟩

/-- The input whose markers use the letters F through J. -/
def fjInput : String := "What? F. one G. two H. three I. four J. five"

/-- C3 as written is false for the `LearnMode.tsx` parser: its regex class
is `[A-E]`, so an input whose markers use F–J (here a marker sits at
offset 6) parses to no choices at all. -/
theorem C3_counterexample :
    markerAt isLetterAJi (fjInput.toList.drop 6) = true ∧
      (parseChoicesLearn fjInput).choices = [] := by
  decide

/-- C3 (amended): the SetView variant of the choice parser covers the full
range A–J — every occurrence of a letter A–J followed by a delimiter and a
whitespace character is recognised as a match of the scan, and the F–J
input parses to exactly the choices F, G, H, I, J — while the
`LearnMode.tsx` variant covers only A–E and yields no choices there. -/
theorem C3_letter_range :
    (∀ (l : List Char) (j : Nat), markerAt isLetterAJi (l.drop j) = true →
      ∃ m, m ∈ scanChoices isLetterAJi l ∧ m.idx = j ∧
        m.letter = ((l.drop j).headD ' ').toUpper)
    ∧ (parseChoicesSetView fjInput).choices.map (fun c => c.letter) =
        ['F', 'G', 'H', 'I', 'J']
    ∧ (parseChoicesLearn fjInput).choices = [] := by
  refine ⟨?_, by decide, by decide⟩
  intro l j hm
  have hS : ∀ c, isSpaceJS c = true → isLetterAJi c = false := by
    intro c hc
    have hc2 : c = ' ' ∨ c = '\t' ∨ c = '\n' ∨ c = '\r' ∨
        c = '\x0b' ∨ c = '\x0c' := by
      simpa [isSpaceJS, or_assoc] using hc
    rcases hc2 with h | h | h | h | h | h <;> subst h <;> decide
  have hD : ∀ c, isDelimJS c = true → isLetterAJi c = false := by
    intro c hc
    have hc2 : c = '.' ∨ c = ')' := by
      simpa [isDelimJS] using hc
    rcases hc2 with h | h <;> subst h <;> decide
  obtain ⟨m, hmem, hidx, hlet⟩ :=
    scanAux_finds_marker isLetterAJi hS hD l 0 0 j (Nat.zero_le j) hm
  exact ⟨m, hmem, by omega, hlet⟩

theorem C3_witness :
    ∃ m, m ∈ scanChoices isLetterAJi fjInput.toList ∧ m.idx = 6 ∧
      m.letter = ((fjInput.toList.drop 6).headD ' ').toUpper :=
  C3_letter_range.1 fjInput.toList 6 (by decide)

/-! ## BulkExtractor (`BulkImport.tsx` and its later revision)

Two drifted copies of `parseQuestions` exist.  The revised component
(part_006-adjacent file, called `parseQuestions005` here) strips
`Explanation:`/`Reference:` noise, splits on `Answer[s]?:`, accepts answer
letter runs over A–J and deduplicates the extracted letters.  The
`BulkImport.tsx` copy first tries a monolithic backtracking regex
(`A[.)]…B[.)]…C[.)]…D[.)]…Answer[s]?:\s*([A-E]…)`), then falls back to the
same split-based scan restricted to A–E and without noise stripping or
letter deduplication. -/

/-- Case-insensitive literal test at the head of `l`. -/
def litAt (lit l : List Char) : Bool :=
  (l.take lit.length).map Char.toLower == lit

/-- Index of the first position where any of the (lowercase) literals
matches; the list length when none does — the behaviour of the lazy body
bounded by the lookahead `(?=Lit1|Lit2|$)`. -/
def findAnyLitIdx (lits : List (List Char)) : List Char → Nat
  | [] => 0
  | c :: rest =>
    if lits.any (fun lit => litAt lit (c :: rest)) then 0
    else 1 + findAnyLitIdx lits rest

/-- `text.replace(/Start[\s\S]*?(?=Stop1|Stop2|$)/gi, '\n')`: each match
runs from the start literal to just before the next stop literal (or the
end) and is replaced by a newline; scanning resumes after the match.
`skip` counts characters of the current match still being consumed. -/
def replaceNoiseAux (startLit : List Char) (stopLits : List (List Char)) :
    Nat → List Char → List Char
  | _ + 1, [] => []
  | skip + 1, _ :: rest => replaceNoiseAux startLit stopLits skip rest
  | 0, [] => []
  | 0, c :: rest =>
    if litAt startLit (c :: rest) then
      '\n' :: replaceNoiseAux startLit stopLits
        (startLit.length - 1 +
          findAnyLitIdx stopLits ((c :: rest).drop startLit.length)) rest
    else c :: replaceNoiseAux startLit stopLits 0 rest

/-- First replace in `parseQuestions` (later revision):
`/Explanation:[\s\S]*?(?=Question:|$)/gi` → `'\n'`. -/
def cleanExplanation (l : List Char) : List Char :=
  replaceNoiseAux "explanation:".toList ["question:".toList] 0 l

/-- Second replace: `/Reference:[\s\S]*?(?=Question:|Answer:|$)/gi` → `'\n'`. -/
def cleanReference (l : List Char) : List Char :=
  replaceNoiseAux "reference:".toList ["question:".toList, "answer:".toList] 0 l

/-- Length of a `/Answer[s]?:\s*/i` match at the head of `l`, if any. -/
def answerMarkerLen (l : List Char) : Option Nat :=
  if litAt "answer".toList l then
    match l.drop 6 with
    | ':' :: rest => some (7 + (rest.takeWhile isSpaceJS).length)
    | c :: ':' :: rest =>
      if c.toLower = 's' then some (8 + (rest.takeWhile isSpaceJS).length)
      else none
    | _ => none
  else none

/-- `text.split(/Answer[s]?:\s*/i)`: each marker occurrence ends the
current part; the marker itself is dropped.  `skip` counts marker
characters still being consumed. -/
def splitAnswersAux : Nat → List Char → List (List Char)
  | _ + 1, [] => [[]]
  | skip + 1, _ :: rest => splitAnswersAux skip rest
  | 0, [] => [[]]
  | 0, c :: rest =>
    match answerMarkerLen (c :: rest) with
    | some k => [] :: splitAnswersAux (k - 1) rest
    | none =>
      match splitAnswersAux 0 rest with
      | [] => [[c]]
      | h :: t => (c :: h) :: t

def splitAnswers (l : List Char) : List (List Char) := splitAnswersAux 0 l

/-- The `[,&and\s]` separator class (case-insensitive, so the letters
`a`, `n`, `d` in either case, plus comma, ampersand and whitespace). -/
def isSepClass (c : Char) : Bool :=
  c = ',' || c = '&' || c.toLower = 'a' || c.toLower = 'n' || c.toLower = 'd' ||
    isSpaceJS c

/-- One `(?:\s*[,&and\s]+\s*L)` repetition: since `\s` is contained in the
bracket class, the separator part matches exactly a non-empty run of
separator-class characters; the greedy quantifiers try the longest such
run first and shrink on failure, so the accepted length is the largest
`m ≤ maxRun` with a letter right after it. -/
def tryRepFrom (letterP : Char → Bool) (l : List Char) : Nat → Option Nat
  | 0 => none
  | m + 1 =>
    match l.drop (m + 1) with
    | c :: _ => if letterP c then some (m + 1) else tryRepFrom letterP l m
    | [] => tryRepFrom letterP l m

/-- Length (separator + letter) of one repetition at the head of `l`. -/
def repRun (letterP : Char → Bool) (l : List Char) : Option Nat :=
  match tryRepFrom letterP l ((l.takeWhile isSepClass).length) with
  | some m => some (m + 1)
  | none => none

/-- Total length consumed by the greedy `(?:\s*[,&and\s]+\s*L)*` star. -/
def repsAux (letterP : Char → Bool) : Nat → List Char → Nat
  | _ + 1, [] => 0
  | skip + 1, _ :: rest => repsAux letterP skip rest
  | 0, [] => 0
  | 0, c :: rest =>
    match repRun letterP (c :: rest) with
    | some k => k + repsAux letterP (k - 1) rest
    | none => 0

/-- `/^([A-J]+(?:\s*[,&and\s]+\s*[A-J])*)/i` (later revision): a leading
letter run, then separator/letter repetitions. -/
def answerRun (letterP : Char → Bool) (l : List Char) : Option (List Char) :=
  let letters := l.takeWhile letterP
  if letters = [] then none
  else some (l.take (letters.length + repsAux letterP 0 (l.drop letters.length)))

/-- `/^([A-E](?:\s*[,&and\s]+\s*[A-E])*)/i` (`BulkImport.tsx`): a single
leading letter, then the repetitions. -/
def answerRunSingle (letterP : Char → Bool) : List Char → Option (List Char)
  | [] => none
  | c :: rest =>
    if letterP c then some ((c :: rest).take (1 + repsAux letterP 0 rest))
    else none

/-- `[A-J]` as produced by `answerRaw.match(/[A-J]/g)` after uppercasing. -/
def isUpperAJ (c : Char) : Bool := 'A' ≤ c && c ≤ 'J'

/-- `[A-E]` for the `BulkImport.tsx` copy. -/
def isUpperAE (c : Char) : Bool := 'A' ≤ c && c ≤ 'E'

/-- `Array.from(new Set(answers))`: JS `Set` iterates in insertion order,
so deduplication keeps the first occurrence of each letter. -/
def dedupFSAux (seen : List Char) : List Char → List Char
  | [] => []
  | c :: rest =>
    if c ∈ seen then dedupFSAux seen rest
    else c :: dedupFSAux (c :: seen) rest

def dedupFirstSeen (l : List Char) : List Char := dedupFSAux [] l

/-- `answers.join(',')` for an array of single-letter strings. -/
def joinCommas : List Char → List Char
  | [] => []
  | [c] => [c]
  | c :: rest => c :: ',' :: joinCommas rest

/-- Later revision: uppercase the run, extract all A–J characters,
deduplicate first-seen, join with commas; if no letter is found the raw
(uppercased) run is kept. -/
def normalizeAnswer (run : List Char) : String :=
  let answerRaw := run.map Char.toUpper
  let answers := answerRaw.filter isUpperAJ
  if answers = [] then String.mk answerRaw
  else String.mk (joinCommas (dedupFirstSeen answers))

/-- `BulkImport.tsx`: same but over A–E and with no deduplication. -/
def normalizeAnswerTSX (run : List Char) : String :=
  let answerRaw := run.map Char.toUpper
  let answers := answerRaw.filter isUpperAE
  if answers = [] then String.mk answerRaw
  else String.mk (joinCommas answers)

/-- `questionBlock.replace(/^[A-J]+\s*/i, '')` (later revision). -/
def stripLeadLettersAJ (l : List Char) : List Char :=
  let letters := l.takeWhile isLetterAJi
  if letters = [] then l
  else (l.drop letters.length).dropWhile isSpaceJS

/-- `questionBlock.replace(/^Question:\s*\d*\s*/i, '')`. -/
def stripQuestionLabel (l : List Char) : List Char :=
  if litAt "question:".toList l then
    (((l.drop 9).dropWhile isSpaceJS).dropWhile Char.isDigit).dropWhile isSpaceJS
  else l

/-- One `{questionText, correctAnswer}` record. -/
structure QRecord where
  questionText : String
  correctAnswer : String
deriving DecidableEq, Repr

/-- The split-based loop of the later revision: for each adjacent pair
`(parts[i], parts[i+1])`, skip the candidate when no answer run opens the
answer fragment (`continue`), otherwise clean the question block and emit
a record when it is longer than 10 characters. -/
def processPairs005 (isFirst : Bool) : List (List Char) → List QRecord
  | a :: b :: rest =>
    (match answerRun isLetterAJi b with
    | none => processPairs005 false (b :: rest)
    | some run =>
      let q1 := if isFirst then a else jsTrim (stripLeadLettersAJ a)
      let q2 := jsTrim (stripQuestionLabel q1)
      let q3 := jsTrim q2
      if q3.length > 10 then
        { questionText := String.mk q3, correctAnswer := normalizeAnswer run } ::
          processPairs005 false (b :: rest)
      else processPairs005 false (b :: rest))
  | _ => []

/-- `parseQuestions` of the later revision: strip explanation and
reference noise, split on answer markers, scan the adjacent pairs. -/
def parseQuestions005 (doc : String) : List QRecord :=
  processPairs005 true (splitAnswers (cleanReference (cleanExplanation doc.toList)))

/-- `questionBlock.replace(/^[A-E](?:\s*,\s*[A-E])*\s*/i, '')`
(`BulkImport.tsx`): one comma repetition `\s*,\s*[A-E]`. -/
def commaRepLen (l : List Char) : Option Nat :=
  let w1 := (l.takeWhile isSpaceJS).length
  match l.drop w1 with
  | ',' :: rest2 =>
    let w2 := (rest2.takeWhile isSpaceJS).length
    match rest2.drop w2 with
    | c :: _ => if isLetterAEi c then some (w1 + 1 + w2 + 1) else none
    | [] => none
  | _ => none

def dropRepsAux : Nat → List Char → List Char
  | _ + 1, [] => []
  | skip + 1, _ :: rest => dropRepsAux skip rest
  | 0, [] => []
  | 0, c :: rest =>
    match commaRepLen (c :: rest) with
    | some k => dropRepsAux (k - 1) rest
    | none => c :: rest

def stripLeadLettersTSX : List Char → List Char
  | [] => []
  | c :: rest =>
    if isLetterAEi c then (dropRepsAux 0 rest).dropWhile isSpaceJS
    else c :: rest

/-- The fallback loop of `BulkImport.tsx`: split on answer markers, accept
a single leading A–E letter plus repetitions, no `Question:` strip, no
deduplication. -/
def processPairsTSX (isFirst : Bool) : List (List Char) → List QRecord
  | a :: b :: rest =>
    (match answerRunSingle isLetterAEi b with
    | none => processPairsTSX false (b :: rest)
    | some run =>
      let q1 := if isFirst then a else jsTrim (stripLeadLettersTSX a)
      let q2 := jsTrim q1
      if q2.length > 10 then
        { questionText := String.mk q2, correctAnswer := normalizeAnswerTSX run } ::
          processPairsTSX false (b :: rest)
      else processPairsTSX false (b :: rest))
  | _ => []

/-- First suffix whose head is the given letter (case-insensitively)
followed by `.` or `)` — the leftmost `A[.)]`-style position the lazy
`[^]*?` prefixes of the monolithic regex settle on. -/
def findLetterDelim (ch : Char) : List Char → Option (List Char)
  | [] => none
  | c :: rest =>
    match rest with
    | d :: _ =>
      if c.toLower = ch && isDelimJS d then some (c :: rest)
      else findLetterDelim ch rest
    | [] => none

/-- The `Answer[s]?:\s*([A-E]…)` tail of the monolithic regex: find the
next answer marker whose following text opens with an A–E letter run;
on failure at one marker the backtracking moves to the next. -/
def tryAnswerRun : List Char → Option (List Char × List Char × List Char)
  | [] => none
  | c :: rest =>
    match answerMarkerLen (c :: rest) with
    | some k =>
      match answerRunSingle isLetterAEi ((c :: rest).drop k) with
      | some run => some (c :: rest, run, ((c :: rest).drop k).drop run.length)
      | none => tryAnswerRun rest
    | none => tryAnswerRun rest

/-- One match of the monolithic `BulkImport.tsx` regex starting at `s`:
the lazy prefixes make each stage settle on its first viable position, so
the searches chain left to right (failures are monotone in the start
position, so no cross-stage backtracking can succeed where this fails). -/
def branch1Find (s : List Char) :
    Option (List Char × String × List Char) :=
  match findLetterDelim 'a' s with
  | none => none
  | some sA =>
    match findLetterDelim 'b' (sA.drop 2) with
    | none => none
    | some sB =>
      match findLetterDelim 'c' (sB.drop 2) with
      | none => none
      | some sC =>
        match findLetterDelim 'd' (sC.drop 2) with
        | none => none
        | some sD =>
          match tryAnswerRun (sD.drop 2) with
          | none => none
          | some (sAns, run, rem) =>
            some (s.take (s.length - sAns.length), normalizeAnswerTSX run, rem)

/-- The `while ((match = questionPattern.exec(text)) !== null)` loop; each
match consumes at least one character, so `text.length + 1` fuel always
suffices. -/
def branch1Loop : Nat → List Char → List QRecord
  | 0, _ => []
  | fuel + 1, s =>
    match branch1Find s with
    | none => []
    | some (q, ans, rem) =>
      let qt := jsTrim q
      if qt ≠ [] then
        { questionText := String.mk qt, correctAnswer := ans } ::
          branch1Loop fuel rem
      else branch1Loop fuel rem

/-- `parseQuestions` of `BulkImport.tsx`: the monolithic regex first, the
split-based fallback only when it produced nothing. -/
def parseQuestionsTSX (doc : String) : List QRecord :=
  let b1 := branch1Loop (doc.toList.length + 1) doc.toList
  if b1 ≠ [] then b1
  else processPairsTSX true (splitAnswers doc.toList)

/-! ### C7/C8/C9: extraction behaviour -/

theorem dedupFSAux_spec : ∀ (l seen : List Char),
    (dedupFSAux seen l).Nodup ∧ (∀ x ∈ dedupFSAux seen l, x ∉ seen) ∧
    List.Sublist (dedupFSAux seen l) l ∧
    (∀ x, x ∈ dedupFSAux seen l ↔ x ∈ l ∧ x ∉ seen) := by
  intro l
  induction l with
  | nil =>
    intro seen
    refine ⟨List.nodup_nil, by simp [dedupFSAux], List.Sublist.refl _, ?_⟩
    intro x
    simp [dedupFSAux]
  | cons c rest ih =>
    intro seen
    by_cases hc : c ∈ seen
    · obtain ⟨h1, h2, h3, h4⟩ := ih seen
      rw [show dedupFSAux seen (c :: rest) = dedupFSAux seen rest from by
        simp [dedupFSAux, hc]]
      refine ⟨h1, h2, h3.trans (List.sublist_cons_self c rest), ?_⟩
      intro x
      rw [h4 x]
      constructor
      · rintro ⟨hx, hns⟩
        exact ⟨List.mem_cons_of_mem _ hx, hns⟩
      · rintro ⟨hmem, hns⟩
        rcases List.mem_cons.mp hmem with h | h
        · exact absurd (h ▸ hc) hns
        · exact ⟨h, hns⟩
    · obtain ⟨h1, h2, h3, h4⟩ := ih (c :: seen)
      rw [show dedupFSAux seen (c :: rest) =
          c :: dedupFSAux (c :: seen) rest from by
        simp [dedupFSAux, hc]]
      refine ⟨?_, ?_, h3.cons₂ c, ?_⟩
      · rw [List.nodup_cons]
        refine ⟨fun hmem => ?_, h1⟩
        exact (h2 c hmem) (List.mem_cons_self c seen)
      · intro x hx
        rcases List.mem_cons.mp hx with h | h
        · exact h ▸ hc
        · intro hxs
          exact (h2 x h) (List.mem_cons_of_mem _ hxs)
      · intro x
        by_cases hxc : x = c
        · subst hxc
          simp [hc]
        · constructor
          · intro hx
            rcases List.mem_cons.mp hx with h | h
            · exact absurd h hxc
            · obtain ⟨hr, hns⟩ := (h4 x).mp h
              exact ⟨List.mem_cons_of_mem _ hr,
                fun hs => hns (List.mem_cons_of_mem _ hs)⟩
          · rintro ⟨hmem, hns⟩
            rcases List.mem_cons.mp hmem with h | h
            · exact absurd h hxc
            · refine List.mem_cons_of_mem _ ((h4 x).mpr ⟨h, ?_⟩)
              intro hs
              rcases List.mem_cons.mp hs with h2' | h2'
              · exact hxc h2'
              · exact hns h2'

/-- C7 as written is false for the `BulkImport.tsx` extractor: its
normalization never deduplicates — `"Answer: A, A"` yields the record
answer `"A,A"`, not `"A"` (and its letter class is A–E, not A–J). -/
theorem C7_counterexample :
    parseQuestionsTSX "What is foo bar baz? Answer: A, A" =
      [{ questionText := "What is foo bar baz?", correctAnswer := "A,A" }] := by
  decide

/-- C7 (amended): the later revision of the extractor normalizes the
answer run by uppercasing, extracting all A–J letters (a multi-letter run
like "CA" always splits), deduplicating first-seen and joining with commas
without re-sorting — "Answer: CA" yields "C,A".  The `BulkImport.tsx`
copy extracts A–E letters only and performs no deduplication. -/
theorem C7_answer_normalization :
    (∀ run : List Char,
      (dedupFirstSeen ((run.map Char.toUpper).filter isUpperAJ)).Nodup ∧
      List.Sublist (dedupFirstSeen ((run.map Char.toUpper).filter isUpperAJ))
        ((run.map Char.toUpper).filter isUpperAJ) ∧
      (∀ c : Char,
        c ∈ dedupFirstSeen ((run.map Char.toUpper).filter isUpperAJ) ↔
          c ∈ (run.map Char.toUpper).filter isUpperAJ))
    ∧ parseQuestions005 "Which of the following are vowels here? Answer: CA" =
        [{ questionText := "Which of the following are vowels here?",
           correctAnswer := "C,A" }]
    ∧ parseQuestions005 "What is foo bar baz? Answer: A, A" =
        [{ questionText := "What is foo bar baz?", correctAnswer := "A" }] := by
  refine ⟨?_, by decide, by decide⟩
  intro run
  obtain ⟨h1, h2, h3, h4⟩ :=
    dedupFSAux_spec ((run.map Char.toUpper).filter isUpperAJ) []
  refine ⟨h1, h3, ?_⟩
  intro c
  rw [show dedupFirstSeen ((run.map Char.toUpper).filter isUpperAJ) =
      dedupFSAux [] ((run.map Char.toUpper).filter isUpperAJ) from rfl]
  rw [h4 c]
  simp

/-- C8 as written is false for the `BulkImport.tsx` extractor: it performs
no Explanation/Reference stripping, so an explanation block survives into
the next record's question text (and its answer-run match even absorbs the
`E` of `Explanation`). -/
theorem C8_counterexample :
    parseQuestionsTSX "Question: 1 What is foo bar? Answer: A Explanation: some long explanation text here Question: 2 What is baz qux? Answer: B" =
      [{ questionText := "Question: 1 What is foo bar?", correctAnswer := "A,E" },
       { questionText := "Explanation: some long explanation text here Question: 2 What is baz qux?",
         correctAnswer := "B" }] := by
  decide

/-- C8 (amended): the later revision removes every `Explanation:` span up
to the next `Question:` (or end) and every `Reference:` span up to the
next `Question:`/`Answer:` (or end) before splitting, so explanation text
never leaks into records; in both variants an Explanation-only document
with no `Answer:` marker yields zero candidates.  The `BulkImport.tsx`
copy performs no such stripping. -/
theorem C8_noise_stripping :
    parseQuestions005 "Question: 1 What is foo bar? Answer: A Explanation: some long explanation text here Question: 2 What is baz qux? Answer: B" =
      [{ questionText := "What is foo bar?", correctAnswer := "A" },
       { questionText := "What is baz qux?", correctAnswer := "B" }]
    ∧ String.mk (cleanExplanation "A Explanation: xxx Question: B".toList) =
        "A \nQuestion: B"
    ∧ parseQuestions005 "Explanation: blah blah" = []
    ∧ parseQuestionsTSX "Explanation: blah blah" = [] := by
  refine ⟨by decide, by decide, by decide, by decide⟩

/-- C9: when the fragment after an `Answer:` marker does not open with a
valid letter run, the extractor emits no record for that candidate and
continues with the remaining fragments (the loop is a total function — it
returns a possibly-empty list and cannot throw); a malformed middle
candidate is silently dropped while its neighbours are still extracted. -/
theorem C9_malformed_skipped :
    (∀ (a b : List Char) (rest : List (List Char)) (flag : Bool),
      answerRun isLetterAJi b = none →
      processPairs005 flag (a :: b :: rest) = processPairs005 false (b :: rest))
    ∧ parseQuestions005 "Question: 1 What is foo bar? Answer: A Question: 2 What is baz qux? Answer: no idea Question: 3 What is qux quux? Answer: B" =
        [{ questionText := "What is foo bar?", correctAnswer := "A" },
         { questionText := "no idea Question: 3 What is qux quux?",
           correctAnswer := "B" }] := by
  refine ⟨?_, by decide⟩
  intro a b rest flag h
  simp only [processPairs005, h]

theorem C9_witness :
    processPairs005 true ["x".toList, "zz".toList] =
      processPairs005 false ["zz".toList] :=
  C9_malformed_skipped.1 "x".toList "zz".toList [] true (by decide)

/-- C4 (amended): grading is order-tolerant — `grade(setOf(A,C), "C,A")` is
true — but it does not tolerate duplicate letters inside `correctAnswer`:
`getCorrectAnswers "A,C,A"` keeps the duplicate (`["A","C","A"]`), so
`grade(setOf(A,C), "A,C,A")` is false. -/
theorem C4_grade_duplicates :
    checkAnswer ["A", "C"] "C,A" = true
    ∧ checkAnswer ["A", "C"] "A,C,A" = false
    ∧ getCorrectAnswers "A,C,A" = ["A", "C", "A"] := by
  decide
